import Mathlib

set_option maxRecDepth 4000

/-!
Verification development for the BFS/DFS teaching visualizer
(`src/BFS_DFS_Visualizer.py`).

The Python program consists of two pure traversal functions (`bfs_traversal`,
`dfs_traversal`) over a fixed undirected graph `G`, a set of global playback
variables (`traversal_type`, `current_step`, `is_playing`, `is_paused`,
`current_animation`), and a collection of event handlers wired to matplotlib
buttons, key presses and a `FuncAnimation` timer.

This file shallowly embeds that program:

* the graph is an adjacency list (`Graph`), with `neighborsOf` playing the
  role of `G.neighbors` (networkx raises when the queried node is absent, so
  `neighborsOf` returns an `Option`);
* the traversal loops become fuel-indexed recursive functions returning a
  `TravResult` (`ok` for normal return, `unknownNode` for the networkx error
  on an absent node, `outOfFuel` for exhausted fuel — we prove the chosen
  fuel always suffices);
* Python's `list(visited)` turns a set into a list in an unspecified order;
  the loops therefore take a snapshot-ordering parameter `ord`, and the
  program's canonical instantiations use `id` (insertion order);
* the playback globals become the `UIState` structure, and each Python
  handler becomes a function `UIState → UIState`; the `FuncAnimation` object
  is modelled by `AnimState` (total frame count, next frame to deliver,
  running flag), and the delivery of one animation frame by `timer_tick`.
-/

/-! ## Graph model -/

/-- Adjacency list: one entry per node, in networkx insertion order. -/
abbrev Graph := List (String × List String)

/-- Embedding of `G.neighbors(node)`: the adjacency of `node`, or `none` when
the node is absent from the graph (networkx raises `NetworkXError` there,
which the spec names `UnknownStartNodeError`). -/
def neighborsOf (g : Graph) (n : String) : Option (List String) :=
  match g.find? (fun e => e.1 == n) with
  | some e => some e.2
  | none => none

/-- The graph invariant of the spec (§3): every edge endpoint is a node of the
graph, i.e. every listed neighbor has an adjacency entry of its own. -/
def GraphClosed (g : Graph) : Prop :=
  ∀ e ∈ g, ∀ m ∈ e.2, (neighborsOf g m).isSome = true

instance : DecidablePred GraphClosed := fun g =>
  inferInstanceAs (Decidable (∀ e ∈ g, ∀ m ∈ e.2, (neighborsOf g m).isSome = true))

/-- Reachability in the adjacency structure: the nodes connected to `s` by a
chain of neighbor steps (including `s` itself). -/
inductive Reachable (g : Graph) : String → String → Prop where
  | refl (s : String) : Reachable g s s
  | step {s n m : String} {l : List String} :
      Reachable g s n → neighborsOf g n = some l → m ∈ l → Reachable g s m

/-! ## Traversal engine -/

/-- Result of running a traversal: a list of visited-set snapshots, the
networkx unknown-node error, or exhaustion of the recursion fuel. -/
inductive TravResult where
  | ok (steps : List (List String))
  | unknownNode (n : String)
  | outOfFuel
deriving DecidableEq

/-- Fuel bound used for both loops: every loop iteration pops one element, and
at most `1 + Σ |adjacency|` elements are ever pushed, so this fuel is never
exhausted (proved below). -/
def travFuel (g : Graph) : Nat := 2 + (g.map (fun e => e.2.length)).sum

/-- The `while queue:` loop of `bfs_traversal`.  `ord` models the unspecified
iteration order of Python's `list(visited)`; the queue is a FIFO (pop at the
head, `queue.extend` at the tail), and only neighbors not yet visited are
enqueued (`if neighbor not in visited`, checked after `visited.add(node)`). -/
def bfsLoop (g : Graph) (ord : List String → List String) :
    Nat → List String → List String → List (List String) → TravResult
  | 0, _, _, _ => TravResult.outOfFuel
  | fuel + 1, visited, queue, steps =>
    match queue with
    | [] => TravResult.ok steps
    | node :: rest =>
      if node ∈ visited then
        bfsLoop g ord fuel visited rest steps
      else
        match neighborsOf g node with
        | none => TravResult.unknownNode node
        | some nbrs =>
          bfsLoop g ord fuel (visited ++ [node])
            (rest ++ nbrs.filter (fun m => decide (¬ m ∈ visited ++ [node])))
            (steps ++ [ord (visited ++ [node])])

/-- The `while stack:` loop of `dfs_traversal`, with the stack laid out exactly
like the Python list: `stack.pop()` removes the last element and
`stack.extend(reversed(list(G.neighbors(node))))` appends the reversed
adjacency at the end.  All neighbors are pushed, visited or not. -/
def dfsLoop (g : Graph) (ord : List String → List String) :
    Nat → List String → List String → List (List String) → TravResult
  | 0, _, _, _ => TravResult.outOfFuel
  | fuel + 1, visited, stack, steps =>
    match stack.getLast? with
    | none => TravResult.ok steps
    | some node =>
      if node ∈ visited then
        dfsLoop g ord fuel visited stack.dropLast steps
      else
        match neighborsOf g node with
        | none => TravResult.unknownNode node
        | some nbrs =>
          dfsLoop g ord fuel (visited ++ [node])
            (stack.dropLast ++ nbrs.reverse)
            (steps ++ [ord (visited ++ [node])])

/-- `bfs_traversal(start)` with an explicit snapshot order for
`steps.append(list(visited))`. -/
def bfs_traversalOrd (ord : List String → List String) (g : Graph)
    (start : String) : TravResult :=
  bfsLoop g ord (travFuel g) [] [start] []

/-- `dfs_traversal(start)` with an explicit snapshot order for
`steps.append(list(visited))`. -/
def dfs_traversalOrd (ord : List String → List String) (g : Graph)
    (start : String) : TravResult :=
  dfsLoop g ord (travFuel g) [] [start] []

/-- Embedding of `bfs_traversal`, with insertion-order snapshots. -/
def bfs_traversal (g : Graph) (start : String) : TravResult :=
  bfs_traversalOrd id g start

/-- Embedding of `dfs_traversal`, with insertion-order snapshots. -/
def dfs_traversal (g : Graph) (start : String) : TravResult :=
  dfs_traversalOrd id g start

/-! ## The program's fixed graph -/

/-- The adjacency structure of `G = nx.Graph(); G.add_edges_from(edges)` for
`edges = [(A,B), (A,C), (B,D), (B,E), (C,F), (C,G), (A,H), (H,I)]`:
networkx stores adjacency in insertion order, so adding the edges in the
listed order yields these neighbor lists. -/
def Gadj : Graph :=
  [("A", ["B", "C", "H"]),
   ("B", ["A", "D", "E"]),
   ("C", ["A", "F", "G"]),
   ("D", ["B"]),
   ("E", ["B"]),
   ("F", ["C"]),
   ("G", ["C"]),
   ("H", ["A", "I"]),
   ("I", ["H"])]

/-- `G.nodes()`, in networkx insertion order. -/
def nodeList : List String := ["A", "B", "C", "D", "E", "F", "G", "H", "I"]

/-- Reads the step list out of a traversal result (for the program's fixed
graph the traversals always return `ok`). -/
def stepsOf : TravResult → List (List String)
  | TravResult.ok steps => steps
  | _ => []

/-- The precomputed `bfs_steps = bfs_traversal('A')`. -/
def bfs_steps : List (List String) := stepsOf (bfs_traversal Gadj "A")

/-- The precomputed `dfs_steps = dfs_traversal('A')`. -/
def dfs_steps : List (List String) := stepsOf (dfs_traversal Gadj "A")

/-! ## Playback state machine -/

/-- The two values of the `traversal_type` global. -/
inductive Alg where
  | BFS
  | DFS
deriving DecidableEq

/-- Model of the `FuncAnimation` object: total number of frames
(`frames=len(steps)`), the next frame index to deliver, and whether its event
source is running (`pause`/`resume` toggle it; `repeat=False` means no frame
is delivered once `next` reaches `frames`). -/
structure AnimState where
  frames : Nat
  next : Nat
  running : Bool
deriving DecidableEq

/-- The playback globals of the Python module. -/
structure UIState where
  traversal_type : Alg
  current_step : Nat
  is_playing : Bool
  is_paused : Bool
  current_animation : Option AnimState
deriving DecidableEq

/-- Module initialization: `traversal_type = 'BFS'`, `current_step = 0`,
`is_playing = is_paused = False`, `current_animation = None`. -/
def initState : UIState :=
  { traversal_type := Alg.BFS, current_step := 0, is_playing := false,
    is_paused := false, current_animation := none }

/-- `steps = bfs_steps if traversal_type == 'BFS' else dfs_steps`. -/
def activeSteps (s : UIState) : List (List String) :=
  if s.traversal_type = Alg.BFS then bfs_steps else dfs_steps

/-- `set_bfs`: selects BFS and resets the step index; nothing else changes
(the `if not is_playing` in the source only guards a redraw of the title). -/
def set_bfs (s : UIState) : UIState :=
  { s with traversal_type := Alg.BFS, current_step := 0 }

/-- `set_dfs`: selects DFS and resets the step index; nothing else changes. -/
def set_dfs (s : UIState) : UIState :=
  { s with traversal_type := Alg.DFS, current_step := 0 }

/-- `pause_animation`: only acts when an animation exists and `is_playing`;
pauses the animation's event source and flips the playing/paused flags. -/
def pause_animation (s : UIState) : UIState :=
  if s.current_animation.isSome && s.is_playing then
    { s with
      current_animation := s.current_animation.map (fun a => { a with running := false }),
      is_playing := false, is_paused := true }
  else s

/-- `reset_to_beginning`: `current_step = 0`. -/
def reset_to_beginning (s : UIState) : UIState :=
  { s with current_step := 0 }

/-- `start_animation`: resume the existing animation when paused, otherwise
reset the index and create a fresh `FuncAnimation` over the active step list
(`frames=len(steps)`, `repeat=False`). -/
def start_animation (s : UIState) : UIState :=
  if s.is_paused then
    { s with
      current_animation := s.current_animation.map (fun a => { a with running := true }),
      is_playing := true, is_paused := false }
  else
    let s1 := reset_to_beginning s
    { s1 with
      current_animation := some { frames := (activeSteps s1).length, next := 0, running := true },
      is_playing := true, is_paused := false }

/-- `next_step`: advance only while `current_step < len(steps) - 1`, and pause
a running animation after a manual step. -/
def next_step (s : UIState) : UIState :=
  if s.current_step < (activeSteps s).length - 1 then
    let s1 := { s with current_step := s.current_step + 1 }
    if s1.is_playing then pause_animation s1 else s1
  else s

/-- `prev_step`: step back only while `current_step > 0`, pausing a running
animation. -/
def prev_step (s : UIState) : UIState :=
  if s.current_step > 0 then
    let s1 := { s with current_step := s.current_step - 1 }
    if s1.is_playing then pause_animation s1 else s1
  else s

/-- `reset_graph`: stop and drop any animation, clear the flags, rewind. -/
def reset_graph (s : UIState) : UIState :=
  { s with current_animation := none, is_playing := false, is_paused := false,
           current_step := 0 }

/-- `toggle_play_pause` (the Start/Pause button and the space key). -/
def toggle_play_pause (s : UIState) : UIState :=
  if s.is_playing then pause_animation s else start_animation s

/-- `draw_step(i)`: the animation callback stores the frame number into
`current_step` (the drawing itself is presentation, out of scope). -/
def draw_step (i : Nat) (s : UIState) : UIState :=
  { s with current_step := i }

/-- Delivery of one animation frame: a running `FuncAnimation` with frames
left calls `draw_step` with the next frame index and advances; a paused,
absent or exhausted animation (`repeat=False`) delivers nothing. -/
def timer_tick (s : UIState) : UIState :=
  match s.current_animation with
  | none => s
  | some a =>
    if a.running ∧ a.next < a.frames then
      { draw_step a.next s with current_animation := some { a with next := a.next + 1 } }
    else s

/-- The UI events the program reacts to: the six buttons, the four key
bindings, and the animation timer. -/
inductive Event where
  | clickBFS
  | clickDFS
  | clickStartPause
  | clickReset
  | clickPrev
  | clickNext
  | keySpace
  | keyLeft
  | keyRight
  | keyR
  | tick

/-- Dispatch of one event to its handler (buttons via `on_clicked`, keys via
`on_key_press`, timer frames via `FuncAnimation`). -/
def handle_event (e : Event) (s : UIState) : UIState :=
  match e with
  | Event.clickBFS => set_bfs s
  | Event.clickDFS => set_dfs s
  | Event.clickStartPause => toggle_play_pause s
  | Event.clickReset => reset_graph s
  | Event.clickPrev => prev_step s
  | Event.clickNext => next_step s
  | Event.keySpace => toggle_play_pause s
  | Event.keyLeft => prev_step s
  | Event.keyRight => next_step s
  | Event.keyR => reset_graph s
  | Event.tick => timer_tick s

/-- Run a sequence of UI events from the initial state. -/
def runEvents (es : List Event) : UIState :=
  es.foldl (fun s e => handle_event e s) initState

/-- The title rendered by `draw_current_step`. -/
inductive Title where
  | stepTitle (alg : Alg) (stepNum total : Nat)
  | completeTitle (alg : Alg)
deriving DecidableEq

/-- `draw_current_step`: the title and the per-node red/gray flags (true means
red).  Below the end of the sequence it shows `Step current_step+1/len` and
highlights the current snapshot; at or past the end it shows `Complete` and
highlights everything. -/
def draw_current_step (s : UIState) : Title × List Bool :=
  let steps := activeSteps s
  if s.current_step < steps.length then
    (Title.stepTitle s.traversal_type (s.current_step + 1) steps.length,
     nodeList.map (fun n => (steps.getD s.current_step []).contains n))
  else
    (Title.completeTitle s.traversal_type, nodeList.map (fun _ => true))

/-- Concrete value of the precomputed BFS step list: one snapshot per visited
node, each snapshot extending the previous one by the newly visited node, in
first-visit order A, B, C, H, D, E, F, G, I. -/
theorem bfs_steps_eq : bfs_steps =
    [["A"], ["A", "B"], ["A", "B", "C"], ["A", "B", "C", "H"],
     ["A", "B", "C", "H", "D"], ["A", "B", "C", "H", "D", "E"],
     ["A", "B", "C", "H", "D", "E", "F"], ["A", "B", "C", "H", "D", "E", "F", "G"],
     ["A", "B", "C", "H", "D", "E", "F", "G", "I"]] := by decide

/-- Concrete value of the precomputed DFS step list: first-visit order
A, B, D, E, C, F, G, H, I. -/
theorem dfs_steps_eq : dfs_steps =
    [["A"], ["A", "B"], ["A", "B", "D"], ["A", "B", "D", "E"],
     ["A", "B", "D", "E", "C"], ["A", "B", "D", "E", "C", "F"],
     ["A", "B", "D", "E", "C", "F", "G"], ["A", "B", "D", "E", "C", "F", "G", "H"],
     ["A", "B", "D", "E", "C", "F", "G", "H", "I"]] := by decide

theorem bfs_steps_length : bfs_steps.length = 9 := by rw [bfs_steps_eq]; rfl

theorem dfs_steps_length : dfs_steps.length = 9 := by rw [dfs_steps_eq]; rfl

/-! ## C1: algorithm selection -/

/-- A playback state in mid-animation: BFS selected, step 3, playing, with a
running animation at frame 4 of 9. -/
def playingState : UIState :=
  { traversal_type := Alg.BFS, current_step := 3, is_playing := true,
    is_paused := false,
    current_animation := some { frames := 9, next := 4, running := true } }

/-- C1, counterexample: selecting an algorithm while Playing does not stop the
timer and does not set the status to Idle — from a playing state, `set_dfs`
leaves `is_playing` true and the animation untouched and running, so the part
of the claim requiring `status := Idle` and a stopped timer is false. -/
theorem c1_counterexample :
    playingState.is_playing = true ∧
    (set_dfs playingState).traversal_type = Alg.DFS ∧
    (set_dfs playingState).current_step = 0 ∧
    (set_dfs playingState).is_playing = true ∧
    (set_dfs playingState).current_animation
      = some { frames := 9, next := 4, running := true } ∧
    decide ((set_dfs playingState).is_playing = false) = false := by decide

/-- C1 (amended): in every playback state, `set_bfs`/`set_dfs` set the
selected algorithm and reset `current_step` to 0, and change nothing else:
`is_playing`, `is_paused` and the animation are left exactly as they were,
even while Playing (the `if not is_playing` in the source only suppresses the
immediate title redraw). -/
theorem c1_select_algorithm : ∀ s : UIState,
    (set_bfs s).traversal_type = Alg.BFS ∧
    (set_bfs s).current_step = 0 ∧
    (set_bfs s).is_playing = s.is_playing ∧
    (set_bfs s).is_paused = s.is_paused ∧
    (set_bfs s).current_animation = s.current_animation ∧
    (set_dfs s).traversal_type = Alg.DFS ∧
    (set_dfs s).current_step = 0 ∧
    (set_dfs s).is_playing = s.is_playing ∧
    (set_dfs s).is_paused = s.is_paused ∧
    (set_dfs s).current_animation = s.current_animation := by
  intro s
  exact ⟨rfl, rfl, rfl, rfl, rfl, rfl, rfl, rfl, rfl, rfl⟩

/-! ## C2: timer frames -/

/-- A playback state right after pressing Start: the animation is about to
deliver frame 0 while `current_step` is already 0. -/
def c2startedState : UIState :=
  { traversal_type := Alg.BFS, current_step := 0, is_playing := true,
    is_paused := false,
    current_animation := some { frames := 9, next := 0, running := true } }

/-- A playback state after the last animation frame: `current_step` is 8, all
9 frames have been delivered, and the flags were never reset. -/
def c2endState : UIState :=
  { traversal_type := Alg.BFS, current_step := 8, is_playing := true,
    is_paused := false,
    current_animation := some { frames := 9, next := 9, running := true } }

/-- C2, counterexample: the first animation frame sets `current_step` to 0
rather than incrementing it (so a tick does not add 1), and once the frames
are exhausted no tick changes the state — `is_playing` stays true and
`current_step` stays at 8, never reaching the sequence length, so the claimed
stop-timer/Idle transition at `len` never happens. -/
theorem c2_counterexample :
    c2startedState.is_playing = true ∧
    c2startedState.current_step = 0 ∧
    (timer_tick c2startedState).current_step = 0 ∧
    decide ((timer_tick c2startedState).current_step
      = c2startedState.current_step + 1) = false ∧
    timer_tick c2endState = c2endState ∧
    c2endState.is_playing = true ∧
    c2endState.current_step = 8 := by decide

/-- C2 (amended): while an animation is running, each delivered frame sets
`current_step` to the frame number (frames run 0 .. frames-1, so
`current_step` stays strictly below the frame count and never reaches the
sequence length); once the frames are exhausted the animation ends without
looping (`repeat=False`) and ticks change nothing; no tick ever touches
`is_playing`, so the status never becomes Idle. -/
theorem c2_timer_tick : ∀ (s : UIState) (a : AnimState),
    s.current_animation = some a → a.running = true →
    (a.next < a.frames →
      timer_tick s = { s with current_step := a.next,
                              current_animation := some { a with next := a.next + 1 } } ∧
      (timer_tick s).current_step < a.frames) ∧
    (a.frames ≤ a.next → timer_tick s = s) ∧
    (timer_tick s).is_playing = s.is_playing := by
  intro s a ha hrun
  refine ⟨fun hlt => ⟨?_, ?_⟩, fun hge => ?_, ?_⟩
  · simp [timer_tick, ha, hrun, hlt, draw_step]
  · simp [timer_tick, ha, hrun, hlt, draw_step]
  · have hnot : ¬ (a.running = true ∧ a.next < a.frames) := by
      intro h
      omega
    simp [timer_tick, ha, hnot]
  · by_cases hlt : a.next < a.frames
    · simp [timer_tick, ha, hrun, hlt, draw_step]
    · simp [timer_tick, ha, hrun, hlt]

/-- C2, witness state: BFS playing mid-animation, next frame 4 of 9. -/
def c2wState : UIState :=
  { traversal_type := Alg.BFS, current_step := 0, is_playing := true,
    is_paused := false,
    current_animation := some { frames := 9, next := 4, running := true } }

theorem c2_timer_tick_witness :
    timer_tick c2wState
      = { c2wState with
          current_step := 4,
          current_animation := some { frames := 9, next := 5, running := true } } ∧
    (timer_tick c2wState).is_playing = c2wState.is_playing := by
  have h := c2_timer_tick c2wState { frames := 9, next := 4, running := true } rfl rfl
  exact ⟨(h.1 (by decide)).1, h.2.2⟩

/-! ## C3: manual stepping -/

/-- The state at the last step of the BFS sequence (index 8 of 9). -/
def c3endState : UIState :=
  { traversal_type := Alg.BFS, current_step := 8, is_playing := false,
    is_paused := false, current_animation := none }

/-- C3, counterexample: at `current_step = 8 < 9 = len(bfs_steps)` the claim
requires Next to advance to 9, but `next_step` (guard
`current_step < len(steps) - 1`) is already a no-op at index `len - 1`. -/
theorem c3_counterexample :
    c3endState.current_step < (activeSteps c3endState).length ∧
    next_step c3endState = c3endState ∧
    decide ((next_step c3endState).current_step
      = c3endState.current_step + 1) = false := by decide

/-- C3 (amended): Next increments `current_step` by exactly 1 whenever
`current_step + 1 < len(activeSequence)` (additionally pausing when Playing
with a live animation), and is a no-op whenever
`current_step ≥ len(activeSequence) - 1` — so the index never advances past
`len - 1` and in particular never reaches the `len` "complete" sentinel. -/
theorem c3_next_step : ∀ s : UIState,
    (s.current_step + 1 < (activeSteps s).length →
      (next_step s).current_step = s.current_step + 1 ∧
      (s.is_playing = true → s.current_animation.isSome = true →
        (next_step s).is_playing = false ∧ (next_step s).is_paused = true)) ∧
    ((activeSteps s).length ≤ s.current_step + 1 → next_step s = s) := by
  intro s
  constructor
  · intro hlt
    have hguard : s.current_step < (activeSteps s).length - 1 := by omega
    refine ⟨?_, ?_⟩
    · cases hp : s.is_playing with
      | false => simp [next_step, hguard, hp]
      | true =>
        cases hs : s.current_animation with
        | none => simp [next_step, hguard, hp, pause_animation, hs]
        | some a => simp [next_step, hguard, hp, pause_animation, hs]
    · intro hp hsome
      cases hs : s.current_animation with
      | none =>
        rw [hs] at hsome
        simp at hsome
      | some a =>
        constructor
        · simp [next_step, hguard, hp, pause_animation, hs]
        · simp [next_step, hguard, hp, pause_animation, hs]
  · intro hge
    have hguard : ¬ s.current_step < (activeSteps s).length - 1 := by omega
    simp [next_step, hguard]

/-- C3, witness state: DFS playing at step 2, animation live. -/
def c3wState : UIState :=
  { traversal_type := Alg.DFS, current_step := 2, is_playing := true,
    is_paused := false,
    current_animation := some { frames := 9, next := 3, running := true } }

theorem c3_next_step_witness :
    (next_step c3wState).current_step = 3 ∧
    (next_step c3wState).is_playing = false ∧
    (next_step c3wState).is_paused = true := by
  have h := (c3_next_step c3wState).1 (by decide)
  exact ⟨h.1, (h.2 rfl rfl).1, (h.2 rfl rfl).2⟩

/-! ## C5: the concrete BFS run -/

/-- C5, counterexample: the BFS run from A on the program's graph produces 9
pairwise-distinct snapshots (one per reachable node), not the 8 the claim
states. -/
theorem c5_counterexample :
    bfs_steps.length = 9 ∧ bfs_steps.Nodup ∧
    decide (bfs_steps.length = 8) = false := by decide

/-- C5 (amended): on the fixed graph, `bfs_traversal('A')` visits the nodes
for the first time in the order A, B, C, H, D, E, F, G, I — each snapshot
appends exactly the newly visited node — and produces 9 distinct visited-set
snapshots. -/
theorem c5_bfs_concrete :
    bfs_steps =
      [["A"], ["A", "B"], ["A", "B", "C"], ["A", "B", "C", "H"],
       ["A", "B", "C", "H", "D"], ["A", "B", "C", "H", "D", "E"],
       ["A", "B", "C", "H", "D", "E", "F"],
       ["A", "B", "C", "H", "D", "E", "F", "G"],
       ["A", "B", "C", "H", "D", "E", "F", "G", "I"]] ∧
    bfs_steps.length = 9 ∧ bfs_steps.Nodup := by
  refine ⟨bfs_steps_eq, bfs_steps_length, ?_⟩
  decide

/-! ## C6: DFS reverse-push discipline -/

/-- The DFS first-visit order on the program's graph. -/
def dfsVisitOrder : List String := ["A", "B", "D", "E", "C", "F", "G", "H", "I"]

/-- C6: when the DFS loop pops an unvisited node it pushes that node's
neighbors in reverse adjacency order on top of the remaining stack (so LIFO
popping explores them in original adjacency order); concretely, on the
program's graph (adjacency of A: B, C, H with B before H) the first-visit
order is A, B, D, E, C, F, G, H, I, and every node of B's subtree
(B, D, E) is visited strictly before every node of H's subtree (H, I). -/
theorem c6_reverse_push :
    (∀ (g : Graph) (fuel : Nat) (visited stack : List String)
        (steps : List (List String)) (node : String) (nbrs : List String),
        stack.getLast? = some node → ¬ node ∈ visited →
        neighborsOf g node = some nbrs →
        dfsLoop g id (fuel + 1) visited stack steps
          = dfsLoop g id fuel (visited ++ [node])
              (stack.dropLast ++ nbrs.reverse)
              (steps ++ [visited ++ [node]])) ∧
    dfs_steps.getLast? = some dfsVisitOrder ∧
    (∀ b ∈ ["B", "D", "E"], ∀ h ∈ ["H", "I"],
      dfsVisitOrder.indexOf b < dfsVisitOrder.indexOf h) := by
  refine ⟨?_, ?_, ?_⟩
  · intro g fuel visited stack steps node nbrs hlast hvis hnbrs
    simp only [dfsLoop, hlast, if_neg hvis, hnbrs, id_eq]
  · rw [dfs_steps_eq]
    rfl
  · decide

theorem c6_reverse_push_witness :
    dfsLoop Gadj id 1 [] ["A"] []
      = dfsLoop Gadj id 0 ["A"] ["H", "C", "B"] [["A"]] := by
  have h := c6_reverse_push.1 Gadj 0 [] ["A"] [] "A" ["B", "C", "H"]
    rfl (by decide) rfl
  exact h

/-! ## C8: the step index never leaves [0, len-1] -/

/-- The reachable-state invariant of the playback machine: the step index is
below 9 (the common length of both precomputed sequences), and any live
animation was created over a 9-step sequence. -/
def UIInv (s : UIState) : Prop :=
  s.current_step < 9 ∧ ∀ a, s.current_animation = some a → a.frames = 9

theorem activeSteps_length (s : UIState) : (activeSteps s).length = 9 := by
  unfold activeSteps
  split
  · exact bfs_steps_length
  · exact dfs_steps_length

theorem pause_animation_inv (s : UIState) (h : UIInv s) :
    UIInv (pause_animation s) := by
  unfold pause_animation
  split
  · refine ⟨h.1, ?_⟩
    intro a ha
    simp only [Option.map_eq_some'] at ha
    obtain ⟨b, hb, hba⟩ := ha
    rw [← hba]
    exact h.2 b hb
  · exact h

theorem start_animation_inv (s : UIState) (h : UIInv s) :
    UIInv (start_animation s) := by
  simp only [start_animation, reset_to_beginning]
  split
  · refine ⟨h.1, ?_⟩
    intro a ha
    simp only [Option.map_eq_some'] at ha
    obtain ⟨b, hb, hba⟩ := ha
    rw [← hba]
    exact h.2 b hb
  · refine ⟨?_, ?_⟩
    · show (0 : Nat) < 9
      omega
    · intro a ha
      simp only [Option.some.injEq] at ha
      rw [← ha]
      exact activeSteps_length _

theorem next_step_inv (s : UIState) (h : UIInv s) : UIInv (next_step s) := by
  simp only [next_step]
  split
  · next hguard =>
    have hlen := activeSteps_length s
    have hlt : s.current_step + 1 < 9 := by omega
    split
    · exact pause_animation_inv _ ⟨hlt, h.2⟩
    · exact ⟨hlt, h.2⟩
  · exact h

theorem prev_step_inv (s : UIState) (h : UIInv s) : UIInv (prev_step s) := by
  simp only [prev_step]
  split
  · have h1 := h.1
    have hlt : s.current_step - 1 < 9 := by omega
    split
    · exact pause_animation_inv _ ⟨hlt, h.2⟩
    · exact ⟨hlt, h.2⟩
  · exact h

theorem timer_tick_inv (s : UIState) (h : UIInv s) : UIInv (timer_tick s) := by
  unfold timer_tick
  split
  · exact h
  · next a ha =>
    split
    · next hcond =>
      have hfr := h.2 a ha
      exact ⟨by simp [draw_step]; omega, by
        intro b hb
        simp only [Option.some.injEq] at hb
        rw [← hb]
        exact hfr⟩
    · exact h

theorem toggle_play_pause_inv (s : UIState) (h : UIInv s) :
    UIInv (toggle_play_pause s) := by
  unfold toggle_play_pause
  split
  · exact pause_animation_inv s h
  · exact start_animation_inv s h

theorem set_alg_inv (s : UIState) (t : Alg) (h : UIInv s) :
    UIInv { s with traversal_type := t, current_step := 0 } := by
  refine ⟨?_, h.2⟩
  show (0 : Nat) < 9
  omega

theorem reset_graph_inv (s : UIState) : UIInv (reset_graph s) := by
  refine ⟨?_, ?_⟩
  · show (0 : Nat) < 9
    omega
  · intro a ha
    cases ha

theorem handle_event_inv (e : Event) (s : UIState) (h : UIInv s) :
    UIInv (handle_event e s) := by
  cases e with
  | clickBFS => exact set_alg_inv s Alg.BFS h
  | clickDFS => exact set_alg_inv s Alg.DFS h
  | clickStartPause => exact toggle_play_pause_inv s h
  | clickReset => exact reset_graph_inv s
  | clickPrev => exact prev_step_inv s h
  | clickNext => exact next_step_inv s h
  | keySpace => exact toggle_play_pause_inv s h
  | keyLeft => exact prev_step_inv s h
  | keyRight => exact next_step_inv s h
  | keyR => exact reset_graph_inv s
  | tick => exact timer_tick_inv s h

theorem runEvents_inv (es : List Event) : UIInv (runEvents es) := by
  suffices h : ∀ s, UIInv s → UIInv (es.foldl (fun s e => handle_event e s) s) by
    exact h initState ⟨by decide, by intro a ha; cases ha⟩
  induction es with
  | nil => exact fun s hs => hs
  | cons e es ih => exact fun s hs => ih _ (handle_event_inv e s hs)

/-- C8: after any sequence of UI events from the initial state, the step
index is strictly below the length of the active sequence (Next stops at
len-1 and animation frames range over 0..len-1, both sequences having the 9
reachable nodes), so `draw_current_step` always renders the per-step title —
the `Complete` branch is unreachable. -/
theorem c8_step_index_in_range : ∀ es : List Event,
    (runEvents es).current_step < (activeSteps (runEvents es)).length ∧
    (draw_current_step (runEvents es)).1
      = Title.stepTitle (runEvents es).traversal_type
          ((runEvents es).current_step + 1)
          (activeSteps (runEvents es)).length := by
  intro es
  have h := runEvents_inv es
  have hlen := activeSteps_length (runEvents es)
  have h1 := h.1
  have hlt : (runEvents es).current_step < (activeSteps (runEvents es)).length := by
    omega
  refine ⟨hlt, ?_⟩
  unfold draw_current_step
  simp only [hlt, if_pos]

/-! ## Traversal correctness machinery -/

/-- The list of snapshots recorded when, starting from visited list `v`, the
nodes of `w` are newly visited in order: each snapshot is the visited list
after one more visit. -/
def snapsFrom (v : List String) : List String → List (List String)
  | [] => []
  | n :: ns => (v ++ [n]) :: snapsFrom (v ++ [n]) ns

/-- One snapshot to the next: a single new node is appended. -/
def GrowRel (p q : List String) : Prop := ∃ n, ¬ n ∈ p ∧ q = p ++ [n]

theorem snapsFrom_length (w v : List String) :
    (snapsFrom v w).length = w.length := by
  induction w generalizing v with
  | nil => rfl
  | cons n ns ih => simp [snapsFrom, ih]

theorem snapsFrom_getLast (w v : List String) (hw : w ≠ []) :
    (snapsFrom v w).getLast? = some (v ++ w) := by
  induction w generalizing v with
  | nil => cases hw rfl
  | cons n ns ih =>
    cases ns with
    | nil => simp [snapsFrom]
    | cons m ns' =>
      have hstep : snapsFrom v (n :: m :: ns')
          = (v ++ [n]) :: snapsFrom (v ++ [n]) (m :: ns') := rfl
      have htail : snapsFrom (v ++ [n]) (m :: ns')
          = ((v ++ [n]) ++ [m]) :: snapsFrom ((v ++ [n]) ++ [m]) ns' := rfl
      rw [hstep, htail, List.getLast?_cons_cons, ← htail, ih (v ++ [n]) (by simp)]
      simp

theorem snapsFrom_chain (w v : List String) (hfresh : ∀ x ∈ w, ¬ x ∈ v)
    (hnodup : w.Nodup) : List.Chain' GrowRel (snapsFrom v w) := by
  induction w generalizing v with
  | nil => exact List.chain'_nil
  | cons n ns ih =>
    have hfresh' : ∀ x ∈ ns, ¬ x ∈ v ++ [n] := by
      intro x hx
      simp only [List.mem_append, List.mem_singleton]
      rintro (hxv | hxn)
      · exact hfresh x (List.mem_cons_of_mem _ hx) hxv
      · exact (List.nodup_cons.mp hnodup).1 (hxn ▸ hx)
    have htail := ih (v ++ [n]) hfresh' (List.nodup_cons.mp hnodup).2
    rw [show snapsFrom v (n :: ns) = (v ++ [n]) :: snapsFrom (v ++ [n]) ns from rfl]
    rw [List.chain'_cons']
    refine ⟨?_, htail⟩
    intro b hb
    cases ns with
    | nil => cases hb
    | cons m ns' =>
      have : b = (v ++ [n]) ++ [m] := by
        rw [show snapsFrom (v ++ [n]) (m :: ns')
            = ((v ++ [n]) ++ [m]) :: snapsFrom ((v ++ [n]) ++ [m]) ns' from rfl] at hb
        simpa using hb.symm
      exact ⟨m, hfresh' m (List.mem_cons_self _ _), this⟩

/-- Termination potential of a traversal loop state: pending pops plus the
total adjacency size of the not-yet-visited part of the graph.  Every loop
iteration strictly decreases it. -/
def adjWeight (g : Graph) (v : List String) : Nat :=
  match g with
  | [] => 0
  | e :: g' => (if e.1 ∈ v then 0 else e.2.length) + adjWeight g' v

theorem adjWeight_mono (g : Graph) (v v' : List String)
    (hsub : ∀ x ∈ v, x ∈ v') : adjWeight g v' ≤ adjWeight g v := by
  induction g with
  | nil => exact Nat.le_refl 0
  | cons e g' ih =>
    have hhead : (if e.1 ∈ v' then 0 else e.2.length)
        ≤ (if e.1 ∈ v then 0 else e.2.length) := by
      by_cases h1 : e.1 ∈ v
      · simp [h1, hsub _ h1]
      · by_cases h2 : e.1 ∈ v' <;> simp [h1, h2]
    calc (if e.1 ∈ v' then 0 else e.2.length) + adjWeight g' v'
        ≤ (if e.1 ∈ v then 0 else e.2.length) + adjWeight g' v :=
          Nat.add_le_add hhead ih
      _ = adjWeight (e :: g') v := rfl

theorem neighborsOf_eq_some (g : Graph) (n : String) (l : List String)
    (h : neighborsOf g n = some l) : ∃ e ∈ g, e.1 = n ∧ e.2 = l := by
  unfold neighborsOf at h
  cases hf : g.find? (fun e => e.1 == n) with
  | none => rw [hf] at h; cases h
  | some e =>
    rw [hf] at h
    injection h with h2
    have hp : (e.1 == n) = true :=
      List.find?_some (p := fun x : String × List String => x.1 == n) hf
    exact ⟨e, List.mem_of_find?_eq_some hf, eq_of_beq hp, h2⟩

theorem adjWeight_drop (g : Graph) (v : List String) (node : String)
    (l : List String) (hnb : neighborsOf g node = some l) (hv : ¬ node ∈ v) :
    l.length + adjWeight g (v ++ [node]) ≤ adjWeight g v := by
  induction g with
  | nil => cases hnb
  | cons e g' ih =>
    by_cases he : (e.1 == node) = true
    · have hfind : neighborsOf (e :: g') node = some e.2 := by
        unfold neighborsOf
        rw [List.find?_cons_of_pos (p := fun x => x.1 == node) g' he]
      rw [hfind] at hnb
      injection hnb with hl
      have he' : e.1 = node := eq_of_beq he
      have h1 : ¬ e.1 ∈ v := by rw [he']; exact hv
      have h2 : e.1 ∈ v ++ [node] := by simp [he']
      have hmono := adjWeight_mono g' v (v ++ [node])
        (fun x hx => List.mem_append_left _ hx)
      show l.length + ((if e.1 ∈ v ++ [node] then 0 else e.2.length)
        + adjWeight g' (v ++ [node]))
        ≤ (if e.1 ∈ v then 0 else e.2.length) + adjWeight g' v
      rw [if_pos h2, if_neg h1, ← hl]
      omega
    · have hne : (e.1 == node) = false := by
        cases h : (e.1 == node)
        · rfl
        · exact absurd h he
      have hfind : neighborsOf (e :: g') node = neighborsOf g' node := by
        unfold neighborsOf
        rw [List.find?_cons_of_neg (p := fun x => x.1 == node) g' (by simp [hne])]
      rw [hfind] at hnb
      have htail := ih hnb
      have hne' : e.1 ≠ node := fun hcontra => he (beq_iff_eq.mpr hcontra)
      have hsame : (e.1 ∈ v ++ [node]) ↔ (e.1 ∈ v) := by
        simp [List.mem_append, hne']
      show l.length + ((if e.1 ∈ v ++ [node] then 0 else e.2.length)
        + adjWeight g' (v ++ [node]))
        ≤ (if e.1 ∈ v then 0 else e.2.length) + adjWeight g' v
      by_cases h1 : e.1 ∈ v
      · rw [if_pos h1, if_pos (hsame.mpr h1)]
        omega
      · rw [if_neg h1, if_neg (fun hc => h1 (hsame.mp hc))]
        omega

/-- The BFS loop never exhausts its fuel when the fuel exceeds the potential:
each iteration pops one queue element and pushes at most the adjacency of a
newly visited node, which it simultaneously removes from the potential. -/
theorem bfsLoop_no_fuel_exhaustion (g : Graph) (ord : List String → List String) :
    ∀ (fuel : Nat) (v q : List String) (s : List (List String)),
      q.length + adjWeight g v < fuel →
      bfsLoop g ord fuel v q s ≠ TravResult.outOfFuel := by
  intro fuel
  induction fuel with
  | zero => intro v q s h; exact absurd h (Nat.not_lt_zero _)
  | succ fuel ih =>
    intro v q s h
    cases q with
    | nil => simp [bfsLoop]
    | cons node rest =>
      by_cases hv : node ∈ v
      · rw [show bfsLoop g ord (fuel + 1) v (node :: rest) s
            = bfsLoop g ord fuel v rest s from by simp [bfsLoop, hv]]
        apply ih
        simp only [List.length_cons] at h
        omega
      · cases hnb : neighborsOf g node with
        | none => simp [bfsLoop, hv, hnb]
        | some nbrs =>
          rw [show bfsLoop g ord (fuel + 1) v (node :: rest) s
              = bfsLoop g ord fuel (v ++ [node])
                  (rest ++ nbrs.filter (fun m => decide (¬ m ∈ v ++ [node])))
                  (s ++ [ord (v ++ [node])]) from by simp [bfsLoop, hv, hnb]]
          apply ih
          have hdrop := adjWeight_drop g v node nbrs hnb hv
          have hfil : (nbrs.filter (fun m => decide (¬ m ∈ v ++ [node]))).length
              ≤ nbrs.length := List.length_filter_le _ _
          simp only [List.length_append, List.length_cons] at h ⊢
          omega

/-- The BFS loop never hits the unknown-node error when every queued node and
every neighbor of a graph node is in the graph. -/
theorem bfsLoop_no_unknown (g : Graph) (ord : List String → List String)
    (hg : GraphClosed g) :
    ∀ (fuel : Nat) (v q : List String) (s : List (List String)),
      (∀ x ∈ q, (neighborsOf g x).isSome = true) →
      ∀ n, bfsLoop g ord fuel v q s ≠ TravResult.unknownNode n := by
  intro fuel
  induction fuel with
  | zero => intro v q s hq n; simp [bfsLoop]
  | succ fuel ih =>
    intro v q s hq n
    cases q with
    | nil => simp [bfsLoop]
    | cons node rest =>
      by_cases hv : node ∈ v
      · rw [show bfsLoop g ord (fuel + 1) v (node :: rest) s
            = bfsLoop g ord fuel v rest s from by simp [bfsLoop, hv]]
        exact ih v rest s (fun x hx => hq x (List.mem_cons_of_mem _ hx)) n
      · cases hnb : neighborsOf g node with
        | none =>
          have hs := hq node (List.mem_cons_self _ _)
          rw [hnb] at hs
          cases hs
        | some nbrs =>
          rw [show bfsLoop g ord (fuel + 1) v (node :: rest) s
              = bfsLoop g ord fuel (v ++ [node])
                  (rest ++ nbrs.filter (fun m => decide (¬ m ∈ v ++ [node])))
                  (s ++ [ord (v ++ [node])]) from by simp [bfsLoop, hv, hnb]]
          apply ih
          intro x hx
          rcases List.mem_append.mp hx with hx | hx
          · exact hq x (List.mem_cons_of_mem _ hx)
          · have hxl : x ∈ nbrs := List.mem_of_mem_filter hx
            obtain ⟨e, he, he1, he2⟩ := neighborsOf_eq_some g node nbrs hnb
            exact hg e he x (he2 ▸ hxl)

theorem bfsLoop_visited_step (g : Graph) (ord : List String → List String)
    (fuel : Nat) (v : List String) (node : String) (rest : List String)
    (s : List (List String)) (hv : node ∈ v) :
    bfsLoop g ord (fuel + 1) v (node :: rest) s = bfsLoop g ord fuel v rest s := by
  simp [bfsLoop, hv]

theorem bfsLoop_visit_step (g : Graph) (ord : List String → List String)
    (fuel : Nat) (v : List String) (node : String) (rest : List String)
    (s : List (List String)) (nbrs : List String) (hv : ¬ node ∈ v)
    (hnb : neighborsOf g node = some nbrs) :
    bfsLoop g ord (fuel + 1) v (node :: rest) s
      = bfsLoop g ord fuel (v ++ [node])
          (rest ++ nbrs.filter (fun m => decide (¬ m ∈ v ++ [node])))
          (s ++ [ord (v ++ [node])]) := by
  simp [bfsLoop, hv, hnb]

/-- Everything a successful BFS loop run guarantees, by one induction on the
fuel: the output extends the accumulated snapshots by one per newly visited
node (`snapsFrom`); the new nodes are fresh and pairwise distinct; every
queued node ends up visited; the final visited set is closed under neighbors
(given the invariant that neighbors of already-visited nodes sit in
visited ∪ queue); and the new nodes all satisfy any predicate that holds on
the queue and is preserved by neighbor steps (instantiated with
reachability). -/
theorem bfsLoop_ok_spec (g : Graph) :
    ∀ (fuel : Nat) (v q : List String) (s out : List (List String)),
      bfsLoop g id fuel v q s = TravResult.ok out →
      ∃ w : List String,
        out = s ++ snapsFrom v w ∧
        (∀ x ∈ w, ¬ x ∈ v) ∧
        w.Nodup ∧
        (∀ x ∈ q, x ∈ v ∨ x ∈ w) ∧
        ((∀ n ∈ v, ∀ l, neighborsOf g n = some l → ∀ m ∈ l, m ∈ v ∨ m ∈ q) →
          ∀ n, n ∈ v ∨ n ∈ w → ∀ l, neighborsOf g n = some l →
            ∀ m ∈ l, m ∈ v ∨ m ∈ w) ∧
        (∀ R : String → Prop, (∀ x ∈ q, R x) →
          (∀ n l m, R n → neighborsOf g n = some l → m ∈ l → R m) →
          ∀ x ∈ w, R x) := by
  intro fuel
  induction fuel with
  | zero =>
    intro v q s out h
    simp [bfsLoop] at h
  | succ fuel ih =>
    intro v q s out h
    cases q with
    | nil =>
      have hout : out = s := by
        have h2 : TravResult.ok s = TravResult.ok out := by simpa [bfsLoop] using h
        injection h2 with h3
        exact h3.symm
      refine ⟨[], ?_, ?_, List.nodup_nil, ?_, ?_, ?_⟩
      · simp [snapsFrom, hout]
      · intro x hx; cases hx
      · intro x hx; cases hx
      · intro hinv n hn l hl m hm
        rcases hn with hn | hn
        · exact hinv n hn l hl m hm
        · cases hn
      · intro R hq hstep x hx; cases hx
    | cons node rest =>
      by_cases hv : node ∈ v
      · rw [bfsLoop_visited_step g id fuel v node rest s hv] at h
        obtain ⟨w, h1, h2, h3, h4, h5, h6⟩ := ih v rest s out h
        refine ⟨w, h1, h2, h3, ?_, ?_, ?_⟩
        · intro x hx
          rcases List.mem_cons.mp hx with rfl | hx
          · exact Or.inl hv
          · exact h4 x hx
        · intro hinv
          apply h5
          intro n hn l hl m hm
          rcases hinv n hn l hl m hm with hmv | hmq
          · exact Or.inl hmv
          · rcases List.mem_cons.mp hmq with rfl | hmq
            · exact Or.inl hv
            · exact Or.inr hmq
        · intro R hq hstep
          exact h6 R (fun x hx => hq x (List.mem_cons_of_mem _ hx)) hstep
      · cases hnb : neighborsOf g node with
        | none =>
          rw [show bfsLoop g id (fuel + 1) v (node :: rest) s
              = TravResult.unknownNode node from by simp [bfsLoop, hv, hnb]] at h
          cases h
        | some nbrs =>
          rw [bfsLoop_visit_step g id fuel v node rest s nbrs hv hnb] at h
          obtain ⟨w', h1, h2, h3, h4, h5, h6⟩ := ih _ _ _ _ h
          refine ⟨node :: w', ?_, ?_, ?_, ?_, ?_, ?_⟩
          · rw [show snapsFrom v (node :: w')
                = (v ++ [node]) :: snapsFrom (v ++ [node]) w' from rfl]
            rw [h1]
            simp
          · intro x hx
            rcases List.mem_cons.mp hx with rfl | hx
            · exact hv
            · intro hxv
              exact h2 x hx (List.mem_append_left _ hxv)
          · refine List.nodup_cons.mpr ⟨?_, h3⟩
            intro hnw
            exact h2 node hnw (List.mem_append_right _ (List.mem_singleton.mpr rfl))
          · intro x hx
            rcases List.mem_cons.mp hx with rfl | hx
            · exact Or.inr (List.mem_cons_self _ _)
            · rcases h4 x (List.mem_append_left _ hx) with hxv | hxw
              · rcases List.mem_append.mp hxv with hxv | hxn
                · exact Or.inl hxv
                · exact Or.inr (List.mem_cons.mpr (Or.inl (List.mem_singleton.mp hxn)))
              · exact Or.inr (List.mem_cons_of_mem _ hxw)
          · intro hinv
            have hinv' : ∀ n ∈ v ++ [node], ∀ l, neighborsOf g n = some l →
                ∀ m ∈ l, m ∈ v ++ [node]
                  ∨ m ∈ rest ++ nbrs.filter (fun m => decide (¬ m ∈ v ++ [node])) := by
              intro n hn l hl m hm
              rcases List.mem_append.mp hn with hnv | hnn
              · rcases hinv n hnv l hl m hm with hmv | hmq
                · exact Or.inl (List.mem_append_left _ hmv)
                · rcases List.mem_cons.mp hmq with rfl | hmq
                  · exact Or.inl (List.mem_append_right _ (List.mem_singleton.mpr rfl))
                  · exact Or.inr (List.mem_append_left _ hmq)
              · have hn' : n = node := List.mem_singleton.mp hnn
                rw [hn'] at hl
                rw [hnb] at hl
                injection hl with hl
                subst hl
                by_cases hmv : m ∈ v ++ [node]
                · exact Or.inl hmv
                · refine Or.inr (List.mem_append_right _ ?_)
                  exact List.mem_filter.mpr ⟨hm, by simpa using hmv⟩
            have hcl := h5 hinv'
            intro n hn l hl m hm
            have hn' : n ∈ v ++ [node] ∨ n ∈ w' := by
              rcases hn with hnv | hnw
              · exact Or.inl (List.mem_append_left _ hnv)
              · rcases List.mem_cons.mp hnw with rfl | hnw
                · exact Or.inl (List.mem_append_right _ (List.mem_singleton.mpr rfl))
                · exact Or.inr hnw
            rcases hcl n hn' l hl m hm with hmv | hmw
            · rcases List.mem_append.mp hmv with hmv | hmn
              · exact Or.inl hmv
              · exact Or.inr (List.mem_cons.mpr (Or.inl (List.mem_singleton.mp hmn)))
            · exact Or.inr (List.mem_cons_of_mem _ hmw)
          · intro R hq hstep
            have hRnode : R node := hq node (List.mem_cons_self _ _)
            have hq' : ∀ x ∈ rest ++ nbrs.filter (fun m => decide (¬ m ∈ v ++ [node])),
                R x := by
              intro x hx
              rcases List.mem_append.mp hx with hx | hx
              · exact hq x (List.mem_cons_of_mem _ hx)
              · exact hstep node nbrs x hRnode hnb (List.mem_of_mem_filter hx)
            intro x hx
            rcases List.mem_cons.mp hx with rfl | hx
            · exact hRnode
            · exact h6 R hq' hstep x hx

/-- The DFS loop with the stack reversed: the Python list keeps the top of
the stack at its end; this auxiliary form keeps it at the head, which makes
the recursion structurally identical to the BFS loop.  `dfsLoop` coincides
with it on the reversed stack (proved below). -/
def dfsLoopAux (g : Graph) (ord : List String → List String) :
    Nat → List String → List String → List (List String) → TravResult
  | 0, _, _, _ => TravResult.outOfFuel
  | fuel + 1, visited, rstack, steps =>
    match rstack with
    | [] => TravResult.ok steps
    | node :: rest =>
      if node ∈ visited then
        dfsLoopAux g ord fuel visited rest steps
      else
        match neighborsOf g node with
        | none => TravResult.unknownNode node
        | some nbrs =>
          dfsLoopAux g ord fuel (visited ++ [node]) (nbrs ++ rest)
            (steps ++ [ord (visited ++ [node])])

theorem dfsLoop_eq_aux (g : Graph) (ord : List String → List String) :
    ∀ (fuel : Nat) (v stack : List String) (s : List (List String)),
      dfsLoop g ord fuel v stack s = dfsLoopAux g ord fuel v stack.reverse s := by
  intro fuel
  induction fuel with
  | zero => intro v stack s; rfl
  | succ fuel ih =>
    intro v stack s
    rcases List.eq_nil_or_concat stack with rfl | ⟨l', a, rfl⟩
    · rfl
    · simp only [List.concat_eq_append]
      have h1 : (l' ++ [a]).getLast? = some a := List.getLast?_concat _
      have h2 : (l' ++ [a]).dropLast = l' := List.dropLast_concat
      have h3 : (l' ++ [a]).reverse = a :: l'.reverse := by simp
      rw [h3]
      simp only [dfsLoop, dfsLoopAux, h1, h2]
      by_cases hv : a ∈ v
      · simp only [if_pos hv]
        exact ih v l' s
      · simp only [if_neg hv]
        cases hnb : neighborsOf g a with
        | none => rfl
        | some nbrs =>
          show dfsLoop g ord fuel (v ++ [a]) (l' ++ nbrs.reverse)
              (s ++ [ord (v ++ [a])])
            = dfsLoopAux g ord fuel (v ++ [a]) (nbrs ++ l'.reverse)
              (s ++ [ord (v ++ [a])])
          rw [ih (v ++ [a]) (l' ++ nbrs.reverse) (s ++ [ord (v ++ [a])])]
          simp [List.reverse_append]

theorem dfsLoopAux_visited_step (g : Graph) (ord : List String → List String)
    (fuel : Nat) (v : List String) (node : String) (rest : List String)
    (s : List (List String)) (hv : node ∈ v) :
    dfsLoopAux g ord (fuel + 1) v (node :: rest) s
      = dfsLoopAux g ord fuel v rest s := by
  simp [dfsLoopAux, hv]

theorem dfsLoopAux_visit_step (g : Graph) (ord : List String → List String)
    (fuel : Nat) (v : List String) (node : String) (rest : List String)
    (s : List (List String)) (nbrs : List String) (hv : ¬ node ∈ v)
    (hnb : neighborsOf g node = some nbrs) :
    dfsLoopAux g ord (fuel + 1) v (node :: rest) s
      = dfsLoopAux g ord fuel (v ++ [node]) (nbrs ++ rest)
          (s ++ [ord (v ++ [node])]) := by
  simp [dfsLoopAux, hv, hnb]

theorem dfsLoopAux_no_fuel_exhaustion (g : Graph)
    (ord : List String → List String) :
    ∀ (fuel : Nat) (v q : List String) (s : List (List String)),
      q.length + adjWeight g v < fuel →
      dfsLoopAux g ord fuel v q s ≠ TravResult.outOfFuel := by
  intro fuel
  induction fuel with
  | zero => intro v q s h; exact absurd h (Nat.not_lt_zero _)
  | succ fuel ih =>
    intro v q s h
    cases q with
    | nil => simp [dfsLoopAux]
    | cons node rest =>
      by_cases hv : node ∈ v
      · rw [dfsLoopAux_visited_step g ord fuel v node rest s hv]
        apply ih
        simp only [List.length_cons] at h
        omega
      · cases hnb : neighborsOf g node with
        | none => simp [dfsLoopAux, hv, hnb]
        | some nbrs =>
          rw [dfsLoopAux_visit_step g ord fuel v node rest s nbrs hv hnb]
          apply ih
          have hdrop := adjWeight_drop g v node nbrs hnb hv
          simp only [List.length_append, List.length_cons] at h ⊢
          omega

theorem dfsLoopAux_no_unknown (g : Graph) (ord : List String → List String)
    (hg : GraphClosed g) :
    ∀ (fuel : Nat) (v q : List String) (s : List (List String)),
      (∀ x ∈ q, (neighborsOf g x).isSome = true) →
      ∀ n, dfsLoopAux g ord fuel v q s ≠ TravResult.unknownNode n := by
  intro fuel
  induction fuel with
  | zero => intro v q s hq n; simp [dfsLoopAux]
  | succ fuel ih =>
    intro v q s hq n
    cases q with
    | nil => simp [dfsLoopAux]
    | cons node rest =>
      by_cases hv : node ∈ v
      · rw [dfsLoopAux_visited_step g ord fuel v node rest s hv]
        exact ih v rest s (fun x hx => hq x (List.mem_cons_of_mem _ hx)) n
      · cases hnb : neighborsOf g node with
        | none =>
          have hs := hq node (List.mem_cons_self _ _)
          rw [hnb] at hs
          cases hs
        | some nbrs =>
          rw [dfsLoopAux_visit_step g ord fuel v node rest s nbrs hv hnb]
          apply ih
          intro x hx
          rcases List.mem_append.mp hx with hx | hx
          · obtain ⟨e, he, he1, he2⟩ := neighborsOf_eq_some g node nbrs hnb
            exact hg e he x (he2 ▸ hx)
          · exact hq x (List.mem_cons_of_mem _ hx)

/-- DFS counterpart of `bfsLoop_ok_spec` (the stack is not deduplicated and
neighbors are pushed unfiltered, but the visited-check on pop yields the same
guarantees). -/
theorem dfsLoopAux_ok_spec (g : Graph) :
    ∀ (fuel : Nat) (v q : List String) (s out : List (List String)),
      dfsLoopAux g id fuel v q s = TravResult.ok out →
      ∃ w : List String,
        out = s ++ snapsFrom v w ∧
        (∀ x ∈ w, ¬ x ∈ v) ∧
        w.Nodup ∧
        (∀ x ∈ q, x ∈ v ∨ x ∈ w) ∧
        ((∀ n ∈ v, ∀ l, neighborsOf g n = some l → ∀ m ∈ l, m ∈ v ∨ m ∈ q) →
          ∀ n, n ∈ v ∨ n ∈ w → ∀ l, neighborsOf g n = some l →
            ∀ m ∈ l, m ∈ v ∨ m ∈ w) ∧
        (∀ R : String → Prop, (∀ x ∈ q, R x) →
          (∀ n l m, R n → neighborsOf g n = some l → m ∈ l → R m) →
          ∀ x ∈ w, R x) := by
  intro fuel
  induction fuel with
  | zero =>
    intro v q s out h
    simp [dfsLoopAux] at h
  | succ fuel ih =>
    intro v q s out h
    cases q with
    | nil =>
      have hout : out = s := by
        have h2 : TravResult.ok s = TravResult.ok out := by simpa [dfsLoopAux] using h
        injection h2 with h3
        exact h3.symm
      refine ⟨[], ?_, ?_, List.nodup_nil, ?_, ?_, ?_⟩
      · simp [snapsFrom, hout]
      · intro x hx; cases hx
      · intro x hx; cases hx
      · intro hinv n hn l hl m hm
        rcases hn with hn | hn
        · exact hinv n hn l hl m hm
        · cases hn
      · intro R hq hstep x hx; cases hx
    | cons node rest =>
      by_cases hv : node ∈ v
      · rw [dfsLoopAux_visited_step g id fuel v node rest s hv] at h
        obtain ⟨w, h1, h2, h3, h4, h5, h6⟩ := ih v rest s out h
        refine ⟨w, h1, h2, h3, ?_, ?_, ?_⟩
        · intro x hx
          rcases List.mem_cons.mp hx with rfl | hx
          · exact Or.inl hv
          · exact h4 x hx
        · intro hinv
          apply h5
          intro n hn l hl m hm
          rcases hinv n hn l hl m hm with hmv | hmq
          · exact Or.inl hmv
          · rcases List.mem_cons.mp hmq with rfl | hmq
            · exact Or.inl hv
            · exact Or.inr hmq
        · intro R hq hstep
          exact h6 R (fun x hx => hq x (List.mem_cons_of_mem _ hx)) hstep
      · cases hnb : neighborsOf g node with
        | none =>
          rw [show dfsLoopAux g id (fuel + 1) v (node :: rest) s
              = TravResult.unknownNode node from by simp [dfsLoopAux, hv, hnb]] at h
          cases h
        | some nbrs =>
          rw [dfsLoopAux_visit_step g id fuel v node rest s nbrs hv hnb] at h
          obtain ⟨w', h1, h2, h3, h4, h5, h6⟩ := ih _ _ _ _ h
          refine ⟨node :: w', ?_, ?_, ?_, ?_, ?_, ?_⟩
          · rw [show snapsFrom v (node :: w')
                = (v ++ [node]) :: snapsFrom (v ++ [node]) w' from rfl]
            rw [h1]
            simp
          · intro x hx
            rcases List.mem_cons.mp hx with rfl | hx
            · exact hv
            · intro hxv
              exact h2 x hx (List.mem_append_left _ hxv)
          · refine List.nodup_cons.mpr ⟨?_, h3⟩
            intro hnw
            exact h2 node hnw (List.mem_append_right _ (List.mem_singleton.mpr rfl))
          · intro x hx
            rcases List.mem_cons.mp hx with rfl | hx
            · exact Or.inr (List.mem_cons_self _ _)
            · rcases h4 x (List.mem_append_right _ hx) with hxv | hxw
              · rcases List.mem_append.mp hxv with hxv | hxn
                · exact Or.inl hxv
                · exact Or.inr (List.mem_cons.mpr (Or.inl (List.mem_singleton.mp hxn)))
              · exact Or.inr (List.mem_cons_of_mem _ hxw)
          · intro hinv
            have hinv' : ∀ n ∈ v ++ [node], ∀ l, neighborsOf g n = some l →
                ∀ m ∈ l, m ∈ v ++ [node] ∨ m ∈ nbrs ++ rest := by
              intro n hn l hl m hm
              rcases List.mem_append.mp hn with hnv | hnn
              · rcases hinv n hnv l hl m hm with hmv | hmq
                · exact Or.inl (List.mem_append_left _ hmv)
                · rcases List.mem_cons.mp hmq with rfl | hmq
                  · exact Or.inl (List.mem_append_right _ (List.mem_singleton.mpr rfl))
                  · exact Or.inr (List.mem_append_right _ hmq)
              · have hn' : n = node := List.mem_singleton.mp hnn
                rw [hn'] at hl
                rw [hnb] at hl
                injection hl with hl
                subst hl
                exact Or.inr (List.mem_append_left _ hm)
            have hcl := h5 hinv'
            intro n hn l hl m hm
            have hn' : n ∈ v ++ [node] ∨ n ∈ w' := by
              rcases hn with hnv | hnw
              · exact Or.inl (List.mem_append_left _ hnv)
              · rcases List.mem_cons.mp hnw with rfl | hnw
                · exact Or.inl (List.mem_append_right _ (List.mem_singleton.mpr rfl))
                · exact Or.inr hnw
            rcases hcl n hn' l hl m hm with hmv | hmw
            · rcases List.mem_append.mp hmv with hmv | hmn
              · exact Or.inl hmv
              · exact Or.inr (List.mem_cons.mpr (Or.inl (List.mem_singleton.mp hmn)))
            · exact Or.inr (List.mem_cons_of_mem _ hmw)
          · intro R hq hstep
            have hRnode : R node := hq node (List.mem_cons_self _ _)
            have hq' : ∀ x ∈ nbrs ++ rest, R x := by
              intro x hx
              rcases List.mem_append.mp hx with hx | hx
              · exact hstep node nbrs x hRnode hnb hx
              · exact hq x (List.mem_cons_of_mem _ hx)
            intro x hx
            rcases List.mem_cons.mp hx with rfl | hx
            · exact hRnode
            · exact h6 R hq' hstep x hx

/-! ## C4, C7, C9: traversal guarantees -/

theorem adjWeight_nil (g : Graph) :
    adjWeight g [] = (g.map (fun e => e.2.length)).sum := by
  induction g with
  | nil => rfl
  | cons e g' ih => simp [adjWeight, ih]

/-- What the spec asserts of a step sequence: snapshots grow by exactly one
fresh node per step, and the final snapshot enumerates (without duplicates)
exactly the nodes reachable from the start node, the sequence having one
entry per such node. -/
def TravSpec (g : Graph) (start : String) (out : List (List String)) : Prop :=
  List.Chain' GrowRel out ∧
  ∃ w : List String, out.getLast? = some w ∧ w.Nodup ∧
    (∀ x, x ∈ w ↔ Reachable g start x) ∧ out.length = w.length

theorem travSpec_of_spec (g : Graph) (start : String) (out : List (List String))
    (w : List String)
    (h1 : out = snapsFrom [] w)
    (h3 : w.Nodup)
    (h4 : start ∈ w)
    (h5 : ∀ n ∈ w, ∀ l, neighborsOf g n = some l → ∀ m ∈ l, m ∈ w)
    (h6 : ∀ x ∈ w, Reachable g start x) :
    TravSpec g start out := by
  have hwne : w ≠ [] := by
    intro hc
    rw [hc] at h4
    cases h4
  constructor
  · rw [h1]
    exact snapsFrom_chain w [] (fun x _ hxv => (List.not_mem_nil x) hxv) h3
  · refine ⟨w, ?_, h3, ?_, ?_⟩
    · rw [h1, snapsFrom_getLast w [] hwne]
      simp
    · intro x
      constructor
      · exact h6 x
      · intro hr
        induction hr with
        | refl => exact h4
        | step _ hnb hm ih => exact h5 _ ih _ hnb _ hm
    · rw [h1, snapsFrom_length]

theorem trav_fuel_bound (g : Graph) : 1 + adjWeight g [] < travFuel g := by
  have h := adjWeight_nil g
  unfold travFuel
  omega

theorem bfs_traversal_ok (g : Graph) (start : String)
    (hstart : (neighborsOf g start).isSome = true) (hg : GraphClosed g) :
    ∃ out, bfs_traversal g start = TravResult.ok out := by
  have hfuel : ([start] : List String).length + adjWeight g [] < travFuel g := by
    have h := trav_fuel_bound g
    simpa using h
  have h1 := bfsLoop_no_fuel_exhaustion g id (travFuel g) [] [start] [] hfuel
  have h2 := bfsLoop_no_unknown g id hg (travFuel g) [] [start] []
    (by
      intro x hx
      have hx' : x = start := List.mem_singleton.mp hx
      rw [hx']
      exact hstart)
  cases hres : bfs_traversal g start with
  | ok out => exact ⟨out, rfl⟩
  | unknownNode n =>
    unfold bfs_traversal bfs_traversalOrd at hres
    exact absurd hres (h2 n)
  | outOfFuel =>
    unfold bfs_traversal bfs_traversalOrd at hres
    exact absurd hres h1

theorem dfs_traversal_ok (g : Graph) (start : String)
    (hstart : (neighborsOf g start).isSome = true) (hg : GraphClosed g) :
    ∃ out, dfs_traversal g start = TravResult.ok out := by
  have hfuel : ([start] : List String).length + adjWeight g [] < travFuel g := by
    have h := trav_fuel_bound g
    simpa using h
  have h1 := dfsLoopAux_no_fuel_exhaustion g id (travFuel g) [] [start] [] hfuel
  have h2 := dfsLoopAux_no_unknown g id hg (travFuel g) [] [start] []
    (by
      intro x hx
      have hx' : x = start := List.mem_singleton.mp hx
      rw [hx']
      exact hstart)
  have heq : dfs_traversal g start
      = dfsLoopAux g id (travFuel g) [] [start] [] := by
    unfold dfs_traversal dfs_traversalOrd
    exact dfsLoop_eq_aux g id (travFuel g) [] [start] []
  cases hres : dfs_traversal g start with
  | ok out => exact ⟨out, rfl⟩
  | unknownNode n =>
    rw [heq] at hres
    exact absurd hres (h2 n)
  | outOfFuel =>
    rw [heq] at hres
    exact absurd hres h1

theorem travSpec_of_ok_spec (g : Graph) (start : String)
    (out : List (List String)) (w : List String)
    (h1 : out = [] ++ snapsFrom [] w)
    (h3 : w.Nodup)
    (h4 : ∀ x ∈ ([start] : List String), x ∈ ([] : List String) ∨ x ∈ w)
    (h5 : (∀ n ∈ ([] : List String), ∀ l, neighborsOf g n = some l →
            ∀ m ∈ l, m ∈ ([] : List String) ∨ m ∈ ([start] : List String)) →
          ∀ n, n ∈ ([] : List String) ∨ n ∈ w → ∀ l, neighborsOf g n = some l →
            ∀ m ∈ l, m ∈ ([] : List String) ∨ m ∈ w)
    (h6 : ∀ R : String → Prop, (∀ x ∈ ([start] : List String), R x) →
          (∀ n l m, R n → neighborsOf g n = some l → m ∈ l → R m) →
          ∀ x ∈ w, R x) :
    TravSpec g start out := by
  have hstartw : start ∈ w := by
    rcases h4 start (List.mem_singleton.mpr rfl) with hc | hc
    · cases hc
    · exact hc
  have hclosure : ∀ n ∈ w, ∀ l, neighborsOf g n = some l → ∀ m ∈ l, m ∈ w := by
    intro n hn l hl m hm
    have hbase : ∀ n ∈ ([] : List String), ∀ l, neighborsOf g n = some l →
        ∀ m ∈ l, m ∈ ([] : List String) ∨ m ∈ ([start] : List String) := by
      intro n hn
      cases hn
    rcases h5 hbase n (Or.inr hn) l hl m hm with hc | hc
    · cases hc
    · exact hc
  have hreach : ∀ x ∈ w, Reachable g start x := by
    apply h6
    · intro x hx
      have hx' : x = start := List.mem_singleton.mp hx
      rw [hx']
      exact Reachable.refl start
    · intro n l m hn hnb hm
      exact Reachable.step hn hnb hm
  exact travSpec_of_spec g start out w (by simpa using h1) h3 hstartw hclosure hreach

/-- C4: for every graph satisfying the spec's graph invariant (every edge
endpoint is a node of the graph) and every start node in it, both traversals
return a step sequence in which each snapshot extends the previous one by
exactly one new node, the final snapshot is exactly the set of nodes
reachable from the start, and the sequence length equals the number of
distinct reachable nodes. -/
theorem c4_traversal_invariants (g : Graph) (start : String)
    (hstart : (neighborsOf g start).isSome = true) (hg : GraphClosed g) :
    ∃ outB outD,
      bfs_traversal g start = TravResult.ok outB ∧
      dfs_traversal g start = TravResult.ok outD ∧
      TravSpec g start outB ∧ TravSpec g start outD := by
  obtain ⟨outB, hB⟩ := bfs_traversal_ok g start hstart hg
  obtain ⟨outD, hD⟩ := dfs_traversal_ok g start hstart hg
  refine ⟨outB, outD, hB, hD, ?_, ?_⟩
  · have hB' : bfsLoop g id (travFuel g) [] [start] [] = TravResult.ok outB := hB
    obtain ⟨w, h1, _, h3, h4, h5, h6⟩ := bfsLoop_ok_spec g (travFuel g) [] [start] [] outB hB'
    exact travSpec_of_ok_spec g start outB w h1 h3 h4 h5 h6
  · have hD' : dfsLoopAux g id (travFuel g) [] [start] [] = TravResult.ok outD := by
      have heq : dfs_traversal g start
          = dfsLoopAux g id (travFuel g) [] [start] [] := by
        unfold dfs_traversal dfs_traversalOrd
        exact dfsLoop_eq_aux g id (travFuel g) [] [start] []
      rw [heq] at hD
      exact hD
    obtain ⟨w, h1, _, h3, h4, h5, h6⟩ := dfsLoopAux_ok_spec g (travFuel g) [] [start] [] outD hD'
    exact travSpec_of_ok_spec g start outD w h1 h3 h4 h5 h6

theorem c4_traversal_invariants_witness :
    ∃ outB outD,
      bfs_traversal Gadj "A" = TravResult.ok outB ∧
      dfs_traversal Gadj "A" = TravResult.ok outD ∧
      TravSpec Gadj "A" outB ∧ TravSpec Gadj "A" outD :=
  c4_traversal_invariants Gadj "A" (by decide) (by decide)

/-- C7: starting either traversal from a node absent from the graph fails
with the unknown-node error (networkx's `NetworkXError`, the spec's
`UnknownStartNodeError`) — the result is the error, not a step sequence. -/
theorem c7_unknown_start (g : Graph) (start : String)
    (h : neighborsOf g start = none) :
    bfs_traversal g start = TravResult.unknownNode start ∧
    dfs_traversal g start = TravResult.unknownNode start := by
  obtain ⟨k, hk⟩ : ∃ k, travFuel g = k + 1 :=
    ⟨1 + (g.map (fun e => e.2.length)).sum, by unfold travFuel; omega⟩
  constructor
  · unfold bfs_traversal bfs_traversalOrd
    rw [hk]
    simp [bfsLoop, h]
  · unfold dfs_traversal dfs_traversalOrd
    rw [hk]
    simp [dfsLoop, h]

theorem c7_unknown_start_witness :
    bfs_traversal Gadj "Z" = TravResult.unknownNode "Z" ∧
    dfs_traversal Gadj "Z" = TravResult.unknownNode "Z" :=
  c7_unknown_start Gadj "Z" (by decide)

/-- C9: for every graph and every start node in it, both traversals
terminate: although the queue and the stack are not deduplicated, a node's
neighbors are pushed only on its first visit, so at most
`1 + Σ |adjacency|` pushes ever happen and the fuel `travFuel` (which
bounds the number of loop iterations by that quantity) is never exhausted —
the run always ends in a step sequence or in the unknown-node error. -/
theorem c9_termination (g : Graph) (start : String)
    (_hstart : (neighborsOf g start).isSome = true) :
    ((∃ out, bfs_traversal g start = TravResult.ok out) ∨
      (∃ n, bfs_traversal g start = TravResult.unknownNode n)) ∧
    ((∃ out, dfs_traversal g start = TravResult.ok out) ∨
      (∃ n, dfs_traversal g start = TravResult.unknownNode n)) := by
  have hfuel : ([start] : List String).length + adjWeight g [] < travFuel g := by
    have h := trav_fuel_bound g
    simpa using h
  constructor
  · have h1 := bfsLoop_no_fuel_exhaustion g id (travFuel g) [] [start] [] hfuel
    cases hres : bfs_traversal g start with
    | ok out => exact Or.inl ⟨out, rfl⟩
    | unknownNode n => exact Or.inr ⟨n, rfl⟩
    | outOfFuel =>
      unfold bfs_traversal bfs_traversalOrd at hres
      exact absurd hres h1
  · have h1 := dfsLoopAux_no_fuel_exhaustion g id (travFuel g) [] [start] [] hfuel
    have heq : dfs_traversal g start
        = dfsLoopAux g id (travFuel g) [] [start] [] := by
      unfold dfs_traversal dfs_traversalOrd
      exact dfsLoop_eq_aux g id (travFuel g) [] [start] []
    cases hres : dfs_traversal g start with
    | ok out => exact Or.inl ⟨out, rfl⟩
    | unknownNode n => exact Or.inr ⟨n, rfl⟩
    | outOfFuel =>
      rw [heq] at hres
      exact absurd hres h1

theorem c9_termination_witness :
    ((∃ out, bfs_traversal Gadj "A" = TravResult.ok out) ∨
      (∃ n, bfs_traversal Gadj "A" = TravResult.unknownNode n)) ∧
    ((∃ out, dfs_traversal Gadj "A" = TravResult.ok out) ∨
      (∃ n, dfs_traversal Gadj "A" = TravResult.unknownNode n)) :=
  c9_termination Gadj "A" (by decide)

/-! ## C10: determinism up to the unspecified set-iteration order -/

/-- Two snapshots describe the same visited set. -/
def SnapSetEq (p q : List String) : Prop := ∀ x, x ∈ p ↔ x ∈ q

/-- Two traversal results agree: same outcome, with snapshots equal as sets
position by position. -/
def ResultSetEq : TravResult → TravResult → Prop
  | TravResult.ok a, TravResult.ok b => List.Forall₂ SnapSetEq a b
  | TravResult.unknownNode n, TravResult.unknownNode m => n = m
  | TravResult.outOfFuel, TravResult.outOfFuel => True
  | _, _ => False

theorem bfsLoop_ord_irrelevant (g : Graph) (ord₁ ord₂ : List String → List String)
    (ho₁ : ∀ v x, x ∈ ord₁ v ↔ x ∈ v) (ho₂ : ∀ v x, x ∈ ord₂ v ↔ x ∈ v) :
    ∀ (fuel : Nat) (v q : List String) (s₁ s₂ : List (List String)),
      List.Forall₂ SnapSetEq s₁ s₂ →
      ResultSetEq (bfsLoop g ord₁ fuel v q s₁) (bfsLoop g ord₂ fuel v q s₂) := by
  intro fuel
  induction fuel with
  | zero => intro v q s₁ s₂ hs; exact trivial
  | succ fuel ih =>
    intro v q s₁ s₂ hs
    cases q with
    | nil => exact hs
    | cons node rest =>
      by_cases hv : node ∈ v
      · rw [bfsLoop_visited_step g ord₁ fuel v node rest s₁ hv,
            bfsLoop_visited_step g ord₂ fuel v node rest s₂ hv]
        exact ih v rest s₁ s₂ hs
      · cases hnb : neighborsOf g node with
        | none =>
          rw [show bfsLoop g ord₁ (fuel + 1) v (node :: rest) s₁
              = TravResult.unknownNode node from by simp [bfsLoop, hv, hnb],
            show bfsLoop g ord₂ (fuel + 1) v (node :: rest) s₂
              = TravResult.unknownNode node from by simp [bfsLoop, hv, hnb]]
          exact rfl
        | some nbrs =>
          rw [bfsLoop_visit_step g ord₁ fuel v node rest s₁ nbrs hv hnb,
              bfsLoop_visit_step g ord₂ fuel v node rest s₂ nbrs hv hnb]
          apply ih
          exact List.rel_append hs (List.Forall₂.cons
            (fun x => (ho₁ (v ++ [node]) x).trans ((ho₂ (v ++ [node]) x).symm))
            List.Forall₂.nil)

theorem dfsLoopAux_ord_irrelevant (g : Graph)
    (ord₁ ord₂ : List String → List String)
    (ho₁ : ∀ v x, x ∈ ord₁ v ↔ x ∈ v) (ho₂ : ∀ v x, x ∈ ord₂ v ↔ x ∈ v) :
    ∀ (fuel : Nat) (v q : List String) (s₁ s₂ : List (List String)),
      List.Forall₂ SnapSetEq s₁ s₂ →
      ResultSetEq (dfsLoopAux g ord₁ fuel v q s₁) (dfsLoopAux g ord₂ fuel v q s₂) := by
  intro fuel
  induction fuel with
  | zero => intro v q s₁ s₂ hs; exact trivial
  | succ fuel ih =>
    intro v q s₁ s₂ hs
    cases q with
    | nil => exact hs
    | cons node rest =>
      by_cases hv : node ∈ v
      · rw [dfsLoopAux_visited_step g ord₁ fuel v node rest s₁ hv,
            dfsLoopAux_visited_step g ord₂ fuel v node rest s₂ hv]
        exact ih v rest s₁ s₂ hs
      · cases hnb : neighborsOf g node with
        | none =>
          rw [show dfsLoopAux g ord₁ (fuel + 1) v (node :: rest) s₁
              = TravResult.unknownNode node from by simp [dfsLoopAux, hv, hnb],
            show dfsLoopAux g ord₂ (fuel + 1) v (node :: rest) s₂
              = TravResult.unknownNode node from by simp [dfsLoopAux, hv, hnb]]
          exact rfl
        | some nbrs =>
          rw [dfsLoopAux_visit_step g ord₁ fuel v node rest s₁ nbrs hv hnb,
              dfsLoopAux_visit_step g ord₂ fuel v node rest s₂ nbrs hv hnb]
          apply ih
          exact List.rel_append hs (List.Forall₂.cons
            (fun x => (ho₁ (v ++ [node]) x).trans ((ho₂ (v ++ [node]) x).symm))
            List.Forall₂.nil)

/-- C10: both traversals are deterministic as producers of visited-set
sequences — the only unspecified behavior in the source is the iteration
order of `list(visited)`, and for any two membership-preserving orders the
two runs take identical branches and produce snapshot sequences that are
equal set by set (on a fixed graph with its fixed adjacency order). -/
theorem c10_determinism (ord₁ ord₂ : List String → List String)
    (ho₁ : ∀ v x, x ∈ ord₁ v ↔ x ∈ v) (ho₂ : ∀ v x, x ∈ ord₂ v ↔ x ∈ v)
    (g : Graph) (start : String) :
    ResultSetEq (bfs_traversalOrd ord₁ g start) (bfs_traversalOrd ord₂ g start) ∧
    ResultSetEq (dfs_traversalOrd ord₁ g start) (dfs_traversalOrd ord₂ g start) := by
  constructor
  · exact bfsLoop_ord_irrelevant g ord₁ ord₂ ho₁ ho₂ (travFuel g) [] [start] [] []
      List.Forall₂.nil
  · unfold dfs_traversalOrd
    rw [dfsLoop_eq_aux g ord₁ (travFuel g) [] [start] [],
        dfsLoop_eq_aux g ord₂ (travFuel g) [] [start] []]
    exact dfsLoopAux_ord_irrelevant g ord₁ ord₂ ho₁ ho₂ (travFuel g) []
      ([start].reverse) [] [] List.Forall₂.nil

theorem c10_determinism_witness :
    ResultSetEq (bfs_traversalOrd id Gadj "A")
      (bfs_traversalOrd List.reverse Gadj "A") ∧
    ResultSetEq (dfs_traversalOrd id Gadj "A")
      (dfs_traversalOrd List.reverse Gadj "A") :=
  c10_determinism id List.reverse (by intro v x; simp) (by intro v x; simp)
    Gadj "A"
